import Mathlib

/-!
Verification of the rule-matching and response-decision engine of `dns-redirect`
(`src/main.rs`).  The engine is shallowly embedded: the supported subset of the
`regex` crate is given an executable backtracking matcher returning all matches
in leftmost-first greedy priority order, the `strfmt` template substitution is
modelled from the specification, and `find_replacement` / `handle_request` /
`load_from_json` are translated directly from the source.  Rust `unwrap` panics
are represented by `Except.error`.
-/

namespace DnsRedirect

/-- Abstract syntax for the subset of the `regex` crate used by the rule sets:
literal characters, `.` (any character except a newline), the anchors `^` and
`$`, concatenation, the greedy suffix operators `?`, `*`, `+` (the latter
desugared to `seq r (star r)`), and numbered capture groups. -/
inductive RE where
  | eps
  | any
  | bol
  | eol
  | char (c : Char)
  | seq (r1 r2 : RE)
  | opt (r : RE)
  | star (r : RE)
  | group (g : Nat) (r : RE)
deriving DecidableEq

/-- Number of syntax nodes of a pattern; used only to bound the matcher fuel. -/
def RE.size : RE → Nat
  | .eps => 1
  | .any => 1
  | .bol => 1
  | .eol => 1
  | .char _ => 1
  | .seq r1 r2 => r1.size + r2.size + 1
  | .opt r => r.size + 1
  | .star r => r.size + 1
  | .group _ r => r.size + 1

/-- Largest capture-group index occurring in a pattern.  For patterns produced
by `Regex.new` the groups are numbered `1..maxGroup` in opening-parenthesis
order, so this is also the number of capture groups, mirroring the slot count
of the `regex` crate's `Captures::iter`. -/
def RE.maxGroup : RE → Nat
  | .eps => 0
  | .any => 0
  | .bol => 0
  | .eol => 0
  | .char _ => 0
  | .seq r1 r2 => max r1.maxGroup r2.maxGroup
  | .opt r => r.maxGroup
  | .star r => r.maxGroup
  | .group g r => max g r.maxGroup

/-- Capture state: group index paired with the captured text; a later capture of
the same group shadows an earlier one (lookup takes the first hit). -/
abbrev Caps := List (Nat × String)

/-- Backtracking matcher for `RE` over the haystack `s`, starting at position
`i`: returns every end position (paired with its capture state) reachable by
the pattern, in the priority order of a leftmost-first greedy regex engine, so
the head of the list is the match the `regex` crate reports.  The `Nat`
argument is fuel; `reFuel` below always provides enough. -/
def reMatch (s : List Char) : Nat → RE → Nat → Caps → List (Nat × Caps)
  | 0, _, _, _ => []
  | Nat.succ n, re, i, caps =>
    match re with
    | .eps => [(i, caps)]
    | .any =>
      if h : i < s.length then
        if s.get ⟨i, h⟩ = '\n' then [] else [(i + 1, caps)]
      else []
    | .bol => if i = 0 then [(i, caps)] else []
    | .eol => if i = s.length then [(i, caps)] else []
    | .char c =>
      if h : i < s.length then
        if s.get ⟨i, h⟩ = c then [(i + 1, caps)] else []
      else []
    | .seq r1 r2 => (reMatch s n r1 i caps).flatMap (fun p => reMatch s n r2 p.1 p.2)
    | .opt r => reMatch s n r i caps ++ [(i, caps)]
    | .star r =>
      ((reMatch s n r i caps).flatMap
        (fun p => if i < p.1 then reMatch s n (.star r) p.1 p.2 else [])) ++ [(i, caps)]
    | .group g r =>
      (reMatch s n r i caps).map
        (fun p => (p.1, (g, String.mk ((s.drop i).take (p.1 - i))) :: p.2))

/-- Fuel sufficient for `reMatch` to enumerate every match of `re` in `s`
(proved below as `reMatch_complete`). -/
def reFuel (re : RE) (s : List Char) : Nat := (re.size + 1) * (s.length + 2)

/-- Embeds `regex::Regex::captures`: an unanchored search returning the
leftmost match — the first start position at which the pattern matches — with
its end position and capture state. -/
def RE.captures (re : RE) (s : List Char) : Option (Nat × Nat × Caps) :=
  (List.range (s.length + 1)).findSome? (fun i =>
    (reMatch s (reFuel re s) re i []).head?.map (fun p => (i, p.1, p.2)))

/-- Greedy suffix operators `*`, `?`, `+` applied to the preceding atom. -/
def applySuffixOp (a : RE) (cs : List Char) : RE × List Char :=
  match cs with
  | '*' :: rest => (RE.star a, rest)
  | '?' :: rest => (RE.opt a, rest)
  | '+' :: rest => (RE.seq a (RE.star a), rest)
  | _ => (a, cs)

/-- Characters with no bare meaning that may not start an atom. -/
def badAtomChar (c : Char) : Bool :=
  c = '*' || c = '?' || c = '+' || c = '|' || c = '[' || c = '\\' || c = '\x7b'

/-- Recursive-descent parser for the supported pattern subset.  Arguments: fuel
(the input length suffices), remaining input, last capture-group number
assigned; groups are numbered in opening-parenthesis order as in the `regex`
crate.  Returns the parsed pattern, the unconsumed input (starting at `)` if
any), and the updated group counter. -/
def parseSeq : Nat → List Char → Nat → Option (RE × List Char × Nat)
  | 0, _, _ => none
  | Nat.succ n, cs, g =>
    match cs with
    | [] => some (.eps, [], g)
    | ')' :: _ => some (.eps, cs, g)
    | '(' :: rest =>
      match parseSeq n rest (g + 1) with
      | some (inner, ')' :: rest2, g2) =>
        let p := applySuffixOp (.group (g + 1) inner) rest2
        match parseSeq n p.2 g2 with
        | some (b, rest3, g3) => some (.seq p.1 b, rest3, g3)
        | none => none
      | _ => none
    | '\\' :: c :: rest =>
      if c.isAlphanum then none
      else
        let p := applySuffixOp (.char c) rest
        match parseSeq n p.2 g with
        | some (b, rest2, g2) => some (.seq p.1 b, rest2, g2)
        | none => none
    | '.' :: rest =>
      let p := applySuffixOp .any rest
      match parseSeq n p.2 g with
      | some (b, rest2, g2) => some (.seq p.1 b, rest2, g2)
      | none => none
    | '^' :: rest =>
      match parseSeq n rest g with
      | some (b, rest2, g2) => some (.seq .bol b, rest2, g2)
      | none => none
    | '$' :: rest =>
      match parseSeq n rest g with
      | some (b, rest2, g2) => some (.seq .eol b, rest2, g2)
      | none => none
    | c :: rest =>
      if badAtomChar c then none
      else
        let p := applySuffixOp (.char c) rest
        match parseSeq n p.2 g with
        | some (b, rest2, g2) => some (.seq p.1 b, rest2, g2)
        | none => none

/-- Embeds `regex::Regex::new` for the pattern subset of this development:
compilation succeeds only for a complete, balanced pattern; constructs outside
the subset (alternation, character classes, counted repetition, escaped
alphanumerics) are rejected, as is any syntactically invalid pattern such as an
unbalanced parenthesis. -/
def Regex.new (pattern : String) : Option RE :=
  match parseSeq (pattern.data.length + 1) pattern.data 0 with
  | some (re, [], _) => some re
  | _ => none

/-- A compiled rule from the configuration, as in `struct Replacement` of
`src/main.rs` (the Rust field `from` is spelled `from_`, `from` being reserved
in Lean). -/
structure Replacement where
  from_ : RE
  to_ : String
deriving DecidableEq

/-- A Rust `unwrap` panic reachable in `handle_request`: either the
`strfmt(...).unwrap()` in `find_replacement` or the
`Name::from_utf8(value).unwrap()` in the rewrite branch. -/
inductive Panic where
  | strfmtUnwrap
  | nameUnwrap
deriving DecidableEq

instance {ε α : Type} [DecidableEq ε] [DecidableEq α] : DecidableEq (Except ε α) := fun x y =>
  match x, y with
  | .error a, .error b =>
    if h : a = b then .isTrue (by rw [h])
    else .isFalse (fun hc => h (by injection hc))
  | .ok a, .ok b =>
    if h : a = b then .isTrue (by rw [h])
    else .isFalse (fun hc => h (by injection hc))
  | .error _, .ok _ => .isFalse (fun hc => by injection hc)
  | .ok _, .error _ => .isFalse (fun hc => by injection hc)

/-- Reads a digit run immediately followed by a closing brace, returning the
digits and the input after the brace; `none` when the input does not start
with a complete `\x7bN\x7d` placeholder tail. -/
def splitPlaceholder : List Char → Option (List Char × List Char)
  | [] => none
  | c :: rest =>
    if c.isDigit then
      match rest with
      | [] => none
      | c2 :: rest2 =>
        if c2 = '\x7d' then some ([c], rest2)
        else
          match splitPlaceholder rest with
          | some (ds, r2) => some (c :: ds, r2)
          | none => none
    else none

/-- Modelled from the spec: the `strfmt` crate is not part of this repository;
per §4.2 the substitution scans the template for placeholder tokens `\x7bN\x7d`
with `N` a digit run, replaces each with the capture-map entry for the key `N`
(failing when the key is absent — the `TemplateResolutionError` of §7), and
leaves every other character verbatim, with no escaping mechanism for literal
braces.  The `Nat` argument is fuel; the wrapper `strfmt` supplies enough. -/
def strfmtRun (vars : List (String × String)) : Nat → List Char → Except Unit (List Char)
  | 0, _ => .error ()
  | Nat.succ n, cs =>
    match cs with
    | [] => .ok []
    | c :: rest =>
      if c = '\x7b' then
        match splitPlaceholder rest with
        | some (ds, rest2) =>
          match List.lookup (String.mk ds) vars with
          | some v => (strfmtRun vars n rest2).map (fun out => v.data ++ out)
          | none => .error ()
        | none => (strfmtRun vars n rest).map (fun out => '\x7b' :: out)
      else (strfmtRun vars n rest).map (fun out => c :: out)

/-- Modelled from the spec: entry point of the `strfmt` crate as used at
`src/main.rs:60`. -/
def strfmt (template : String) (vars : List (String × String)) : Except Unit String :=
  (strfmtRun vars (template.data.length + 1) template.data).map String.mk

/-- Builds the variable map passed to `strfmt` exactly as `find_replacement`
does: one stringified-index entry per capture slot (`"0"` the whole match,
then every group of the pattern), the empty string for a group that did not
participate. -/
def mkVars (re : RE) (s : List Char) (i j : Nat) (caps : Caps) : List (String × String) :=
  (List.range (re.maxGroup + 1)).map (fun g =>
    (Nat.repr g,
      if g = 0 then String.mk ((s.drop i).take (j - i))
      else
        match caps.lookup g with
        | some v => v
        | none => ""))

/-- Embeds `DomainConversionHandler::find_replacement` (`src/main.rs:53-63`):
the first rule whose pattern matches anywhere in the name wins; its template is
substituted with `strfmt`, and the Rust `.unwrap()` on the substitution result
is a panic, represented as `Except.error Panic.strfmtUnwrap`. -/
def find_replacement (replacements : List Replacement) (name : String) :
    Except Panic (Option String) :=
  match replacements with
  | [] => .ok none
  | r :: rest =>
    match r.from_.captures name.data with
    | some (i, j, caps) =>
      match strfmt r.to_ (mkVars r.from_ name.data i j caps) with
      | .ok out => .ok (some out)
      | .error _ => .error .strfmtUnwrap
    | none => find_replacement rest name

/-- DNS record types appearing in the `match` of `handle_request`; `A`, `AAAA`
and `ANY` are the rewrite-eligible arms, the rest fall to the wildcard arm. -/
inductive RecordType where
  | A
  | AAAA
  | ANY
  | CNAME
  | MX
  | NS
  | PTR
  | SOA
  | SRV
  | TXT
  | CSYNC
deriving DecidableEq

/-- A wire query as seen by the handler: raw name and record type. -/
structure Query where
  name : String
  queryType : RecordType
deriving DecidableEq

/-- The decision of the handler: answer with a CNAME record to `target`, or
NXDOMAIN. -/
inductive ResponseDecision where
  | rewrite (target : String)
  | notFound
deriving DecidableEq

/-- Models hickory's `LowerName`: the handler receives query names already
ASCII-lowercased (`query.name()` in `handle_request` is a `&LowerName`), so the
name is lowercased before any pattern matching. -/
def lowerName (s : String) : String := String.mk (s.data.map Char.toLower)

/-- Modelled from the spec: hickory's `Name::from_utf8` (the external encoding
layer of §6, absent from `src/`) accepts a rewrite target only as a valid DNS
name — every dot-separated label at most 63 bytes and the whole name at most
255 bytes — and errors otherwise. -/
def nameFromUtf8 (s : String) : Option String :=
  if (s.data.splitOn '.').all (fun l => l.length ≤ 63) ∧ s.data.length ≤ 255 then some s
  else none

/-- Embeds `DomainConversionHandler::handle_request` (`src/main.rs:69-114`) up
to wire encoding: only the first query is examined; types other than
`A`/`AAAA`/`ANY` (and an empty question section) yield NXDOMAIN without
consulting the rules; otherwise the matcher runs on the lowercased name and a
hit becomes a CNAME rewrite — with the `Name::from_utf8(value).unwrap()` panic
represented as `Except.error Panic.nameUnwrap`. -/
def handle_request (replacements : List Replacement) (queries : List Query) :
    Except Panic ResponseDecision :=
  match queries.head? with
  | some q =>
    match q.queryType with
    | .A | .AAAA | .ANY =>
      match find_replacement replacements (lowerName q.name) with
      | .error p => .error p
      | .ok none => .ok .notFound
      | .ok (some value) =>
        match nameFromUtf8 value with
        | some target => .ok (.rewrite target)
        | none => .error .nameUnwrap
    | _ => .ok .notFound
  | none => .ok .notFound

/-- A raw configuration entry before pattern compilation, as deserialized from
the JSON `replacements` array. -/
structure RawReplacement where
  from_ : String
  to_ : String

/-- A raw configuration as parsed from JSON text, before `deserialize_regex`
runs on the `from` fields. -/
structure RawConfig where
  bind_address : String
  replacements : List RawReplacement

/-- The validated configuration, as in `struct Config` of `src/main.rs`. -/
structure Config where
  bind_address : String
  replacements : List Replacement

/-- Embeds `deserialize_regex` (`src/main.rs:14-20`): compile the pattern
string, turning a compilation failure into a deserialization error. -/
def deserialize_regex (s : String) : Except String RE :=
  match Regex.new s with
  | some re => .ok re
  | none => .error s

/-- Serde's element-wise deserialization of the `replacements` array: each
entry's `from` field runs through `deserialize_regex`, and the first failure
aborts the whole deserialization. -/
def compileReplacements : List RawReplacement → Except String (List Replacement)
  | [] => .ok []
  | r :: rest =>
    match deserialize_regex r.from_ with
    | .ok re =>
      match compileReplacements rest with
      | .ok reps => .ok (⟨re, r.to_⟩ :: reps)
      | .error e => .error e
    | .error e => .error e

/-- Embeds `Config::load_from_json` (`src/main.rs:36-40`) after JSON lexing:
`serde_json::from_str` deserializes every field, so the configuration value
exists only if every replacement's pattern compiles. -/
def load_from_json (raw : RawConfig) : Except String Config :=
  match compileReplacements raw.replacements with
  | .ok reps => .ok ⟨raw.bind_address, reps⟩
  | .error e => .error e

/-- The substitution contract of §4.2 stated declaratively: `Rendered vars t out`
holds when `out` arises from `t` by replacing each placeholder token
`\x7bN\x7d` (`N` a digit run) with the capture-map entry for the key `N`, and
keeping every other character — including a brace that does not open a
placeholder — verbatim, with no escape mechanism. -/
inductive Rendered (vars : List (String × String)) : List Char → List Char → Prop where
  | nil : Rendered vars [] []
  | subst (ds : List Char) (v : String) (rest out : List Char) :
      ds ≠ [] → (∀ c ∈ ds, c.isDigit) →
      List.lookup (String.mk ds) vars = some v →
      Rendered vars rest out →
      Rendered vars ('\x7b' :: (ds ++ '\x7d' :: rest)) (v.data ++ out)
  | lit (c : Char) (rest out : List Char) :
      (c = '\x7b' → ∀ ds rest2, rest = ds ++ '\x7d' :: rest2 → ds ≠ [] →
        ¬(∀ x ∈ ds, x.isDigit)) →
      Rendered vars rest out →
      Rendered vars (c :: rest) (c :: out)

/-- The first rule of the reference scenarios and tests:
pattern `^(.*)\.mnh.?$`, template `{1}.lan.`. -/
def mnhRule : Replacement := ⟨(Regex.new "^(.*)\\.mnh.?$").getD .eps, "{1}.lan."⟩

/-- The second rule of the reference scenarios and tests:
pattern `^(.*)\.(.*)\.pod.?$`, template `{2}.{1}.pod.`. -/
def podRule : Replacement := ⟨(Regex.new "^(.*)\\.(.*)\\.pod.?$").getD .eps, "{2}.{1}.pod."⟩

/-- The catch-all rule of the first test scenario: pattern `^.*$`,
template `bob.lan.`. -/
def catchAllRule : Replacement := ⟨(Regex.new "^.*$").getD .eps, "bob.lan."⟩

/-- A configuration rule whose template references capture group 1 while its
pattern `^a.?$` has no capture groups at all. -/
def missingGroupRule : Replacement := ⟨(Regex.new "^a.?$").getD .eps, "{1}.lan."⟩

/-- The rewrite target of `longLabelRule`: its first label is 64 bytes long,
one more than a DNS label allows. -/
def longLabelTarget : String := String.mk (List.replicate 64 'a') ++ ".lan."

/-- A configuration rule rewriting the name `x` to `longLabelTarget`. -/
def longLabelRule : Replacement := ⟨(Regex.new "^x.?$").getD .eps, longLabelTarget⟩

/-- Declarative match semantics for the pattern subset: `Matches s re i j`
says the pattern matches precisely the span `[i, j)` of the haystack `s`
(anchors constrain the absolute position, star is the progress-restricted
reflexive-transitive closure of its body, which matches the same spans as the
unrestricted one). -/
inductive Matches (s : List Char) : RE → Nat → Nat → Prop where
  | eps (i : Nat) : Matches s .eps i i
  | any (i : Nat) (h : i < s.length) : s.get ⟨i, h⟩ ≠ '\n' → Matches s .any i (i + 1)
  | bol : Matches s .bol 0 0
  | eol : Matches s .eol s.length s.length
  | char (c : Char) (i : Nat) (h : i < s.length) :
      s.get ⟨i, h⟩ = c → Matches s (.char c) i (i + 1)
  | seq {r1 r2 : RE} {i k j : Nat} :
      Matches s r1 i k → Matches s r2 k j → Matches s (.seq r1 r2) i j
  | optSome {r : RE} {i j : Nat} : Matches s r i j → Matches s (.opt r) i j
  | optNone (r : RE) (i : Nat) : Matches s (.opt r) i i
  | starNil (r : RE) (i : Nat) : Matches s (.star r) i i
  | starCons {r : RE} {i k j : Nat} :
      i < k → Matches s r i k → Matches s (.star r) k j → Matches s (.star r) i j
  | group {r : RE} {i j : Nat} (g : Nat) : Matches s r i j → Matches s (.group g r) i j

theorem Matches.bounds {s : List Char} {re : RE} {i j : Nat}
    (h : Matches s re i j) : i ≤ j ∧ (i ≤ s.length → j ≤ s.length) := by
  induction h with
  | eps i => omega
  | any i h _ => omega
  | bol => omega
  | eol => omega
  | char c i h _ => omega
  | seq h1 h2 ih1 ih2 => omega
  | optSome h ih => omega
  | optNone r i => omega
  | starNil r i => omega
  | starCons hik h1 h2 ih1 ih2 => omega
  | group g h ih => omega

/-- Soundness of the backtracking matcher: every listed result is a real match
of the span from the start position to the listed end position, and positions
stay inside the haystack. -/
theorem reMatch_sound {s : List Char} :
    ∀ {n : Nat} {re : RE} {i : Nat} {caps0 : Caps} {j : Nat} {caps : Caps},
      (j, caps) ∈ reMatch s n re i caps0 → i ≤ s.length →
      Matches s re i j ∧ i ≤ j ∧ j ≤ s.length := by
  intro n
  induction n with
  | zero => intro re i caps0 j caps hmem; simp [reMatch] at hmem
  | succ n ih =>
    intro re i caps0 j caps hmem hi
    cases re with
    | eps =>
      simp only [reMatch, List.mem_singleton, Prod.mk.injEq] at hmem
      obtain ⟨rfl, rfl⟩ := hmem
      exact ⟨.eps _, le_refl _, hi⟩
    | any =>
      simp only [reMatch] at hmem
      split at hmem
      · next h =>
        split at hmem
        · simp at hmem
        · next hne =>
          simp only [List.mem_singleton, Prod.mk.injEq] at hmem
          obtain ⟨rfl, rfl⟩ := hmem
          exact ⟨.any i h hne, by omega, by omega⟩
      · simp at hmem
    | bol =>
      simp only [reMatch] at hmem
      split at hmem
      · next h =>
        simp only [List.mem_singleton, Prod.mk.injEq] at hmem
        obtain ⟨rfl, rfl⟩ := hmem
        subst h
        exact ⟨.bol, le_refl _, hi⟩
      · simp at hmem
    | eol =>
      simp only [reMatch] at hmem
      split at hmem
      · next h =>
        simp only [List.mem_singleton, Prod.mk.injEq] at hmem
        obtain ⟨rfl, rfl⟩ := hmem
        subst h
        exact ⟨.eol, le_refl _, le_refl _⟩
      · simp at hmem
    | char c =>
      simp only [reMatch] at hmem
      split at hmem
      · next h =>
        split at hmem
        · next heq =>
          simp only [List.mem_singleton, Prod.mk.injEq] at hmem
          obtain ⟨rfl, rfl⟩ := hmem
          exact ⟨.char c i h heq, by omega, by omega⟩
        · simp at hmem
      · simp at hmem
    | seq r1 r2 =>
      simp only [reMatch, List.mem_flatMap] at hmem
      obtain ⟨p, hp1, hp2⟩ := hmem
      obtain ⟨m1, hik, hkl⟩ := ih hp1 hi
      obtain ⟨m2, hkj, hjl⟩ := ih hp2 hkl
      exact ⟨.seq m1 m2, by omega, hjl⟩
    | opt r =>
      simp only [reMatch, List.mem_append] at hmem
      rcases hmem with hmem | hmem
      · obtain ⟨m, hij, hjl⟩ := ih hmem hi
        exact ⟨.optSome m, hij, hjl⟩
      · simp only [List.mem_singleton, Prod.mk.injEq] at hmem
        obtain ⟨rfl, rfl⟩ := hmem
        exact ⟨.optNone r _, le_refl _, hi⟩
    | star r =>
      simp only [reMatch, List.mem_append, List.mem_flatMap] at hmem
      rcases hmem with ⟨p, hp1, hp2⟩ | hmem
      · split at hp2
        · next hlt =>
          obtain ⟨m1, hik, hkl⟩ := ih hp1 hi
          obtain ⟨m2, hkj, hjl⟩ := ih hp2 hkl
          exact ⟨.starCons hlt m1 m2, by omega, hjl⟩
        · simp at hp2
      · simp only [List.mem_singleton, Prod.mk.injEq] at hmem
        obtain ⟨rfl, rfl⟩ := hmem
        exact ⟨.starNil r _, le_refl _, hi⟩
    | group g r =>
      simp only [reMatch, List.mem_map] at hmem
      obtain ⟨p, hp1, hp2⟩ := hmem
      obtain ⟨m, hij, hjl⟩ := ih hp1 hi
      have hj : j = p.1 := by
        have := congrArg Prod.fst hp2
        simpa using this.symm
      subst hj
      exact ⟨.group g m, hij, hjl⟩

theorem fuel_succ {a b n : Nat} (hn : a * b ≤ n) (ha : 1 ≤ a) (hb : 1 ≤ b) :
    ∃ m, n = m + 1 := by
  have h1 : 1 * 1 ≤ a * b := Nat.mul_le_mul ha hb
  exact ⟨n - 1, by omega⟩

/-- Completeness of the backtracking matcher: every declarative match is among
the results of `reMatch` once the fuel reaches `(re.size + 1) * (s.length + 2 - i)`
(in particular `reFuel` suffices for every start position). -/
theorem reMatch_complete {s : List Char} {re : RE} {i j : Nat}
    (h : Matches s re i j) : i ≤ s.length →
    ∀ (caps0 : Caps) (n : Nat), (re.size + 1) * (s.length + 2 - i) ≤ n →
    ∃ caps, (j, caps) ∈ reMatch s n re i caps0 := by
  induction h with
  | eps i =>
    intro hi caps0 n hn
    obtain ⟨m, rfl⟩ := fuel_succ hn (by omega) (by omega)
    exact ⟨caps0, by simp [reMatch]⟩
  | any i h hne =>
    intro hi caps0 n hn
    obtain ⟨m, rfl⟩ := fuel_succ hn (by omega) (by omega)
    refine ⟨caps0, ?_⟩
    simp only [reMatch]
    rw [dif_pos h, if_neg hne]
    simp
  | bol =>
    intro hi caps0 n hn
    obtain ⟨m, rfl⟩ := fuel_succ hn (by omega) (by omega)
    exact ⟨caps0, by simp [reMatch]⟩
  | eol =>
    intro hi caps0 n hn
    obtain ⟨m, rfl⟩ := fuel_succ hn (by omega) (by omega)
    exact ⟨caps0, by simp [reMatch]⟩
  | char c i h heq =>
    intro hi caps0 n hn
    obtain ⟨m, rfl⟩ := fuel_succ hn (by omega) (by omega)
    refine ⟨caps0, ?_⟩
    simp only [reMatch]
    rw [dif_pos h, if_pos heq]
    simp
  | seq h1 h2 ih1 ih2 =>
    rename_i r1 r2 i k j
    intro hi caps0 n hn
    have hik : i ≤ k := h1.bounds.1
    have hk : k ≤ s.length := h1.bounds.2 hi
    simp only [RE.size] at hn
    obtain ⟨m, rfl⟩ := fuel_succ hn (by omega) (by omega)
    have e : (r1.size + 1) * (s.length + 2 - i) + (r2.size + 1) * (s.length + 2 - i)
        = (r1.size + r2.size + 1 + 1) * (s.length + 2 - i) := by ring
    have hp1 : 0 < (r1.size + 1) * (s.length + 2 - i) := Nat.mul_pos (by omega) (by omega)
    have hp2 : 0 < (r2.size + 1) * (s.length + 2 - i) := Nat.mul_pos (by omega) (by omega)
    have hf1 : (r1.size + 1) * (s.length + 2 - i) ≤ m := by omega
    have hf2 : (r2.size + 1) * (s.length + 2 - k) ≤ m := by
      have mono : (r2.size + 1) * (s.length + 2 - k) ≤ (r2.size + 1) * (s.length + 2 - i) :=
        Nat.mul_le_mul (Nat.le_refl _) (by omega)
      omega
    obtain ⟨caps1, hm1⟩ := ih1 hi caps0 m hf1
    obtain ⟨caps2, hm2⟩ := ih2 hk caps1 m hf2
    refine ⟨caps2, ?_⟩
    simp only [reMatch, List.mem_flatMap]
    exact ⟨(k, caps1), hm1, hm2⟩
  | optSome h ih =>
    rename_i r i j
    intro hi caps0 n hn
    simp only [RE.size] at hn
    obtain ⟨m, rfl⟩ := fuel_succ hn (by omega) (by omega)
    have e : (r.size + 1) * (s.length + 2 - i) + (s.length + 2 - i)
        = (r.size + 1 + 1) * (s.length + 2 - i) := by ring
    have hf : (r.size + 1) * (s.length + 2 - i) ≤ m := by omega
    obtain ⟨caps1, hm⟩ := ih hi caps0 m hf
    refine ⟨caps1, ?_⟩
    simp only [reMatch, List.mem_append]
    exact Or.inl hm
  | optNone r i =>
    intro hi caps0 n hn
    obtain ⟨m, rfl⟩ := fuel_succ hn (by omega) (by omega)
    refine ⟨caps0, ?_⟩
    simp only [reMatch, List.mem_append]
    exact Or.inr (by simp)
  | starNil r i =>
    intro hi caps0 n hn
    obtain ⟨m, rfl⟩ := fuel_succ hn (by omega) (by omega)
    refine ⟨caps0, ?_⟩
    simp only [reMatch, List.mem_append]
    exact Or.inr (by simp)
  | starCons hlt h1 h2 ih1 ih2 =>
    rename_i r i k j
    intro hi caps0 n hn
    have hik : i ≤ k := h1.bounds.1
    have hk : k ≤ s.length := h1.bounds.2 hi
    simp only [RE.size] at hn
    obtain ⟨m, rfl⟩ := fuel_succ hn (by omega) (by omega)
    have e : (r.size + 1) * (s.length + 2 - i) + (s.length + 2 - i)
        = (r.size + 1 + 1) * (s.length + 2 - i) := by ring
    have hp : 0 < s.length + 2 - i := by omega
    have hf1 : (r.size + 1) * (s.length + 2 - i) ≤ m := by
      have hp1 : 0 < (r.size + 1) * (s.length + 2 - i) := Nat.mul_pos (by omega) (by omega)
      omega
    have hf2 : ((RE.star r).size + 1) * (s.length + 2 - k) ≤ m := by
      simp only [RE.size]
      have mono : (r.size + 1 + 1) * (s.length + 2 - k + 1) ≤ (r.size + 1 + 1) * (s.length + 2 - i) :=
        Nat.mul_le_mul (Nat.le_refl _) (by omega)
      have e2 : (r.size + 1 + 1) * (s.length + 2 - k + 1)
          = (r.size + 1 + 1) * (s.length + 2 - k) + (r.size + 1 + 1) := by ring
      omega
    obtain ⟨caps1, hm1⟩ := ih1 hi caps0 m hf1
    obtain ⟨caps2, hm2⟩ := ih2 hk caps1 m hf2
    refine ⟨caps2, ?_⟩
    simp only [reMatch, List.mem_append, List.mem_flatMap]
    refine Or.inl ⟨(k, caps1), hm1, ?_⟩
    simpa [hlt] using hm2
  | group g h ih =>
    rename_i r i j
    intro hi caps0 n hn
    simp only [RE.size] at hn
    obtain ⟨m, rfl⟩ := fuel_succ hn (by omega) (by omega)
    have e : (r.size + 1) * (s.length + 2 - i) + (s.length + 2 - i)
        = (r.size + 1 + 1) * (s.length + 2 - i) := by ring
    have hf : (r.size + 1) * (s.length + 2 - i) ≤ m := by omega
    obtain ⟨caps1, hm⟩ := ih hi caps0 m hf
    refine ⟨(g, String.mk ((s.drop i).take (j - i))) :: caps1, ?_⟩
    simp only [reMatch, List.mem_map]
    exact ⟨(j, caps1), hm, rfl⟩

theorem exists_findSome?_isSome {α β : Type} (l : List α) (f : α → Option β)
    (h : ∃ a ∈ l, (f a).isSome) : (l.findSome? f).isSome := by
  induction l with
  | nil => simp at h
  | cons hd tl ih =>
    obtain ⟨a, ha, hfa⟩ := h
    rcases hfd : f hd with _ | b
    · rcases List.mem_cons.mp ha with rfl | ha2
      · rw [hfd] at hfa; simp at hfa
      · rw [List.findSome?_cons, hfd]
        exact ih ⟨a, ha2, hfa⟩
    · rw [List.findSome?_cons, hfd]
      simp


/-- Characterization of the embedded `Regex::captures`: the unanchored search
succeeds exactly when the pattern matches some span of the haystack. -/
theorem captures_isSome_iff (re : RE) (s : List Char) :
    (re.captures s).isSome ↔ ∃ i j, i ≤ j ∧ j ≤ s.length ∧ Matches s re i j := by
  constructor
  · intro h
    rw [Option.isSome_iff_exists] at h
    obtain ⟨v, hv⟩ := h
    obtain ⟨a, ha, hfa⟩ := List.exists_of_findSome?_eq_some hv
    rw [Option.map_eq_some'] at hfa
    obtain ⟨p, hp, _⟩ := hfa
    have hmem : (p.1, p.2) ∈ reMatch s (reFuel re s) re a [] := List.mem_of_mem_head? hp
    have hi : a ≤ s.length := by
      have := List.mem_range.mp ha
      omega
    obtain ⟨m, hij, hjl⟩ := reMatch_sound hmem hi
    exact ⟨a, p.1, hij, hjl, m⟩
  · rintro ⟨i, j, hij, hjl, m⟩
    have hi : i ≤ s.length := le_trans hij hjl
    have hb : (re.size + 1) * (s.length + 2 - i) ≤ reFuel re s :=
      Nat.mul_le_mul (Nat.le_refl _) (by omega)
    obtain ⟨caps, hmem⟩ := reMatch_complete m hi [] (reFuel re s) hb
    apply exists_findSome?_isSome
    refine ⟨i, List.mem_range.mpr (by omega), ?_⟩
    have hne : reMatch s (reFuel re s) re i [] ≠ [] := List.ne_nil_of_mem hmem
    obtain ⟨p, hp⟩ := Option.isSome_iff_exists.mp (List.head?_isSome.mpr hne)
    rw [hp]
    simp

theorem splitPlaceholder_cons_cons (c c2 : Char) (rest3 : List Char) :
    splitPlaceholder (c :: c2 :: rest3) =
    (if c.isDigit then
       (if c2 = '\x7d' then some ([c], rest3)
        else
          match splitPlaceholder (c2 :: rest3) with
          | some (ds1, r1) => some (c :: ds1, r1)
          | none => none)
     else none) := rfl

theorem splitPlaceholder_some :
    ∀ {rest ds rest2 : List Char}, splitPlaceholder rest = some (ds, rest2) →
    rest = ds ++ '\x7d' :: rest2 ∧ ds ≠ [] ∧ ∀ c ∈ ds, c.isDigit := by
  intro rest
  induction rest with
  | nil => intro ds rest2 h; simp [splitPlaceholder] at h
  | cons c rest ih =>
    intro ds rest2 h
    cases rest with
    | nil =>
      have h2 : (if c.isDigit then (none : Option (List Char × List Char)) else none)
          = some (ds, rest2) := h
      simp at h2
    | cons c2 rest3 =>
      rw [splitPlaceholder_cons_cons] at h
      by_cases hcd : c.isDigit
      · rw [if_pos hcd] at h
        by_cases hc2 : c2 = '\x7d'
        · rw [if_pos hc2] at h
          injection h with h
          injection h with h1 h2
          subst hc2
          refine ⟨by rw [← h1, ← h2]; simp, by rw [← h1]; simp, ?_⟩
          intro x hx
          rw [← h1] at hx
          simp at hx
          subst hx
          exact hcd
        · rw [if_neg hc2] at h
          cases hsp : splitPlaceholder (c2 :: rest3) with
          | some p =>
            obtain ⟨ds1, r1⟩ := p
            rw [hsp] at h
            have h2 : some (c :: ds1, r1) = some (ds, rest2) := h
            injection h2 with h2
            injection h2 with h1 h2
            obtain ⟨hdec, hne1, hdig1⟩ := ih hsp
            subst h1
            subst h2
            refine ⟨by rw [hdec]; simp, by simp, ?_⟩
            intro x hx
            rcases List.mem_cons.mp hx with rfl | hx2
            · exact hcd
            · exact hdig1 x hx2
          | none =>
            rw [hsp] at h
            have h2 : (none : Option (List Char × List Char)) = some (ds, rest2) := h
            simp at h2
      · rw [if_neg hcd] at h
        simp at h

theorem splitPlaceholder_of_decomp :
    ∀ (ds rest2 : List Char), ds ≠ [] → (∀ c ∈ ds, c.isDigit) →
    (splitPlaceholder (ds ++ '\x7d' :: rest2)).isSome := by
  intro ds
  induction ds with
  | nil => intro rest2 hne; simp at hne
  | cons c ds ih =>
    intro rest2 _ hdig
    have hc : c.isDigit := hdig c (by simp)
    cases ds with
    | nil =>
      show (splitPlaceholder (c :: '\x7d' :: rest2)).isSome = true
      rw [splitPlaceholder_cons_cons, if_pos hc, if_pos rfl]
      rfl
    | cons d ds1 =>
      have hd : d.isDigit := hdig d (by simp)
      have hdne : ¬(d = '\x7d') := by
        intro hcon
        rw [hcon] at hd
        simp [Char.isDigit] at hd
      have hs := ih rest2 (by simp) (fun x hx => hdig x (List.mem_cons_of_mem c hx))
      show (splitPlaceholder (c :: (d :: ds1 ++ '\x7d' :: rest2))).isSome = true
      rw [show (d :: ds1 : List Char) ++ '\x7d' :: rest2 = d :: (ds1 ++ '\x7d' :: rest2) from by simp]
      rw [splitPlaceholder_cons_cons, if_pos hc, if_neg ?hd]
      case hd =>
        simpa using hdne
      rw [show (d :: (ds1 ++ '\x7d' :: rest2) : List Char) = d :: ds1 ++ '\x7d' :: rest2 from by simp] at *
      obtain ⟨p, hp⟩ := Option.isSome_iff_exists.mp hs
      rw [hp]
      obtain ⟨ds2, r2⟩ := p
      rfl

theorem strfmtRun_succ_cons (vars : List (String × String)) (n : Nat) (c : Char)
    (rest : List Char) :
    strfmtRun vars (n + 1) (c :: rest) =
    (if c = '\x7b' then
       match splitPlaceholder rest with
       | some (ds, rest2) =>
         match List.lookup (String.mk ds) vars with
         | some v => (strfmtRun vars n rest2).map (fun out => v.data ++ out)
         | none => .error ()
       | none => (strfmtRun vars n rest).map (fun out => '\x7b' :: out)
     else (strfmtRun vars n rest).map (fun out => c :: out)) := rfl

theorem strfmtRun_sound {vars : List (String × String)} :
    ∀ {n : Nat} {t out : List Char}, strfmtRun vars n t = .ok out → Rendered vars t out := by
  intro n
  induction n with
  | zero => intro t out h; simp [strfmtRun] at h
  | succ n ih =>
    intro t out h
    cases t with
    | nil =>
      have h2 : (Except.ok [] : Except Unit (List Char)) = .ok out := h
      injection h2 with h2
      exact h2 ▸ Rendered.nil
    | cons c rest =>
      rw [strfmtRun_succ_cons] at h
      by_cases hc : c = '\x7b'
      · rw [if_pos hc] at h
        cases hsp : splitPlaceholder rest with
        | some p =>
          obtain ⟨ds, rest2⟩ := p
          rw [hsp] at h
          have h3 : (match List.lookup (String.mk ds) vars with
              | some v => Except.map (fun out => v.data ++ out) (strfmtRun vars n rest2)
              | none => Except.error ()) = Except.ok out := h
          cases hlk : List.lookup (String.mk ds) vars with
          | some v =>
            rw [hlk] at h3
            cases hrun : strfmtRun vars n rest2 with
            | error e =>
              rw [hrun] at h3
              have h2 : (Except.error () : Except Unit (List Char)) = .ok out := h3
              simp at h2
            | ok out2 =>
              rw [hrun] at h3
              have h2 : (Except.ok (v.data ++ out2) : Except Unit (List Char)) = .ok out := h3
              injection h2 with h2
              obtain ⟨hdec, hne, hdig⟩ := splitPlaceholder_some hsp
              subst hc
              rw [hdec, ← h2]
              exact Rendered.subst ds v rest2 out2 hne hdig hlk (ih hrun)
          | none =>
            rw [hlk] at h3
            have h2 : (Except.error () : Except Unit (List Char)) = .ok out := h3
            simp at h2
        | none =>
          rw [hsp] at h
          cases hrun : strfmtRun vars n rest with
          | error e =>
            rw [hrun] at h
            have h2 : (Except.error () : Except Unit (List Char)) = .ok out := h
            simp at h2
          | ok out2 =>
            rw [hrun] at h
            have h2 : (Except.ok ('\x7b' :: out2) : Except Unit (List Char)) = .ok out := h
            injection h2 with h2
            subst hc
            rw [← h2]
            refine Rendered.lit _ rest out2 ?_ (ih hrun)
            intro _ ds rest2 hdec hne hall
            have hs := splitPlaceholder_of_decomp ds rest2 hne hall
            rw [hdec] at hsp
            rw [hsp] at hs
            simp at hs
      · rw [if_neg hc] at h
        cases hrun : strfmtRun vars n rest with
        | error e =>
          rw [hrun] at h
          have h2 : (Except.error () : Except Unit (List Char)) = .ok out := h
          simp at h2
        | ok out2 =>
          rw [hrun] at h
          have h2 : (Except.ok (c :: out2) : Except Unit (List Char)) = .ok out := h
          injection h2 with h2
          rw [← h2]
          exact Rendered.lit c rest out2 (fun hc2 => absurd hc2 hc) (ih hrun)

theorem toLower_toLower (c : Char) : c.toLower.toLower = c.toLower := by
  simp only [Char.toLower]
  split
  · next hc =>
    have hv : (c.toNat + 32).isValidChar := by
      rcases hc with ⟨h1, h2⟩
      exact Or.inl (by omega)
    have ht : (Char.ofNat (c.toNat + 32)).toNat = c.toNat + 32 := by
      simp only [Char.ofNat, hv, dif_pos]
      rfl
    rw [ht, if_neg]
    rcases hc with ⟨h1, h2⟩
    omega
  · rfl

theorem lowerName_idem (s : String) : lowerName (lowerName s) = lowerName s := by
  simp only [lowerName]
  congr 1
  show List.map Char.toLower (List.map Char.toLower s.data) = List.map Char.toLower s.data
  rw [List.map_map]
  exact List.map_congr_left (fun c _ => toLower_toLower c)

theorem find_replacement_cons_some {r : Replacement} {rest : List Replacement} {name : String}
    {i j : Nat} {caps : Caps} (hv : r.from_.captures name.data = some (i, j, caps)) :
    find_replacement (r :: rest) name =
    (match strfmt r.to_ (mkVars r.from_ name.data i j caps) with
     | .ok out => Except.ok (some out)
     | .error _ => Except.error Panic.strfmtUnwrap) := by
  simp only [find_replacement, hv]

theorem find_replacement_cons_none {r : Replacement} {rest : List Replacement} {name : String}
    (hv : r.from_.captures name.data = none) :
    find_replacement (r :: rest) name = find_replacement rest name := by
  simp only [find_replacement, hv]

theorem find_replacement_none_of_all_none (replacements : List Replacement) (name : String) :
    (∀ r ∈ replacements, r.from_.captures name.data = none) →
    find_replacement replacements name = .ok none := by
  induction replacements with
  | nil => intro _; rfl
  | cons hd tl ih =>
    intro h
    rw [find_replacement_cons_none (h hd (by simp))]
    exact ih (fun r hr => h r (List.mem_cons_of_mem hd hr))

theorem compileReplacements_error (l : List RawReplacement) :
    (∃ r ∈ l, Regex.new r.from_ = none) →
    ∃ e, compileReplacements l = .error e := by
  induction l with
  | nil => intro h; simp at h
  | cons hd tl ih =>
    intro h
    cases hnew : Regex.new hd.from_ with
    | none =>
      refine ⟨hd.from_, ?_⟩
      simp only [compileReplacements, deserialize_regex, hnew]
    | some re =>
      obtain ⟨r, hr, hbad⟩ := h
      rcases List.mem_cons.mp hr with rfl | hr2
      · rw [hnew] at hbad
        simp at hbad
      · obtain ⟨e, he⟩ := ih ⟨r, hr2, hbad⟩
        refine ⟨e, ?_⟩
        simp only [compileReplacements, deserialize_regex, hnew, he]

/-- C1: the specification demands that a template referencing a capture group
absent from the capture map must not crash the request-handling path and must
degrade to NXDOMAIN for that query.  The code violates this: at the failing
input — rule `^a.?$` (no capture groups) with template `\x7b1\x7d.lan.` and an
eligible `A` query for `a` — `find_replacement` hits `strfmt(...).unwrap()` on
a substitution error and the handler panics instead of answering NXDOMAIN. -/
theorem C1_missing_group_panics :
    find_replacement [missingGroupRule] "a" = .error .strfmtUnwrap ∧
    handle_request [missingGroupRule] [⟨"a", .A⟩] = .error .strfmtUnwrap := by
  decide

/-- C2: for every rule set and query name, `find_replacement` uses exactly the
first rule in list order whose pattern matches; rules after it are never
consulted — the result equals the single-rule result, whatever follows, even
when the chosen rule's substitution then fails. -/
theorem C2_first_match_priority (pre post : List Replacement) (r : Replacement) (name : String)
    (hpre : ∀ p ∈ pre, p.from_.captures name.data = none)
    (hr : (r.from_.captures name.data).isSome) :
    find_replacement (pre ++ r :: post) name = find_replacement [r] name := by
  induction pre with
  | nil =>
    rw [Option.isSome_iff_exists] at hr
    obtain ⟨v, hv⟩ := hr
    obtain ⟨i, j, caps⟩ := v
    rw [List.nil_append, find_replacement_cons_some hv, find_replacement_cons_some hv]
  | cons hd tl ih =>
    rw [List.cons_append, find_replacement_cons_none (hpre hd (by simp))]
    exact ih (fun p hp => hpre p (List.mem_cons_of_mem hd hp))

/-- Witness for C2: with the non-matching pod rule first, the matching
`missingGroupRule` second and a catch-all rule last, the decision for query
name `a` equals the single-rule decision (here a substitution panic — the
catch-all rule after the match is still never consulted). -/
theorem C2_witness :
    (∀ p ∈ [podRule], p.from_.captures "a".data = none) ∧
    (missingGroupRule.from_.captures "a".data).isSome ∧
    find_replacement ([podRule] ++ missingGroupRule :: [catchAllRule]) "a" =
      find_replacement [missingGroupRule] "a" :=
  ⟨by decide, by decide,
    C2_first_match_priority [podRule] [catchAllRule] missingGroupRule "a"
      (by decide) (by decide)⟩

/-- C3: a request whose first query has a record type other than `A`, `AAAA`
or `ANY`, and a request with zero questions, are answered NXDOMAIN for every
rule set — the matcher is never consulted, even when a rule would match. -/
theorem C3_type_filtering (replacements : List Replacement) (queries : List Query)
    (h : ∀ q ∈ queries.head?,
      q.queryType ≠ .A ∧ q.queryType ≠ .AAAA ∧ q.queryType ≠ .ANY) :
    handle_request replacements queries = .ok .notFound := by
  cases queries with
  | nil => rfl
  | cons q qs =>
    obtain ⟨hA, hAAAA, hANY⟩ := h q (by simp)
    cases hqt : q.queryType
    case A => exact absurd hqt hA
    case AAAA => exact absurd hqt hAAAA
    case ANY => exact absurd hqt hANY
    all_goals simp [handle_request, hqt]

/-- Witness for C3: a `CSYNC` query for `bob.mnh` — a name the configured rule
does match — and a request with no questions both get NXDOMAIN. -/
theorem C3_witness :
    handle_request [mnhRule] [⟨"bob.mnh", .CSYNC⟩] = .ok .notFound ∧
    handle_request [mnhRule] [] = .ok .notFound := by
  constructor
  · exact C3_type_filtering [mnhRule] [⟨"bob.mnh", .CSYNC⟩]
      (by intro q hq; rw [Option.mem_def] at hq; injection hq with hq; subst hq
          exact ⟨by decide, by decide, by decide⟩)
  · exact C3_type_filtering [mnhRule] []
      (by intro q hq; rw [Option.mem_def] at hq; simp at hq)

/-- C4: for the two-rule set of the reference scenario, the query name
`alice.chad.pod` resolves to the target `chad.alice.pod.` and `x.y.z.pod` to
`z.x.y.pod.` — leftmost-greedy matching lets the first group consume as many
labels as possible, swapping the label order as stated. -/
theorem C4_greedy_scenarios :
    find_replacement [mnhRule, podRule] "alice.chad.pod" = .ok (some "chad.alice.pod.") ∧
    find_replacement [mnhRule, podRule] "x.y.z.pod" = .ok (some "z.x.y.pod.") := by
  decide

/-- C5: the response decision is invariant under the letter case of the query
name: the handler matches on the ASCII-lowercased name (hickory's
`LowerName`), so a name and its lowercased form always produce the same
decision, for every rule set, record type and trailing question list. -/
theorem C5_case_insensitive (replacements : List Replacement) (name : String)
    (t : RecordType) (rest : List Query) :
    handle_request replacements (⟨lowerName name, t⟩ :: rest) =
    handle_request replacements (⟨name, t⟩ :: rest) := by
  cases t <;> simp [handle_request, lowerName_idem]

/-- C6: whenever substitution succeeds, the output arises from the template by
replacing each placeholder token `\x7bN\x7d` (`N` a non-negative integer) with
the capture-map entry for `N` and keeping every other character verbatim; in
particular there is no escaping mechanism for literal braces — a brace outside
a `\x7bN\x7d` placeholder passes through unchanged (the `Rendered.lit` case). -/
theorem C6_substitution_verbatim (template : String) (vars : List (String × String))
    (out : String) (h : strfmt template vars = .ok out) :
    Rendered vars template.data out.data := by
  unfold strfmt at h
  cases hrun : strfmtRun vars (template.data.length + 1) template.data with
  | error e =>
    rw [hrun] at h
    have h2 : (Except.error e : Except Unit String) = .ok out := h
    simp at h2
  | ok l =>
    rw [hrun] at h
    have h2 : (Except.ok (String.mk l) : Except Unit String) = .ok out := h
    injection h2 with h2
    rw [← h2]
    exact strfmtRun_sound hrun

/-- Witness for C6: substituting `a\x7b1\x7db\x7bx\x7d` with the map
`1 ↦ Z` succeeds, replaces the placeholder and passes the non-placeholder
braces through unchanged. -/
theorem C6_witness :
    strfmt "a{1}b{x}" [("1", "Z")] = .ok "aZb{x}" ∧
    Rendered [("1", "Z")] "a{1}b{x}".data "aZb{x}".data :=
  ⟨by decide, C6_substitution_verbatim "a{1}b{x}" [("1", "Z")] "aZb{x}" (by decide)⟩

/-- C7: the matcher adds no implicit anchors: a rule is selected (the decision
for it is not the no-match fallback) exactly when its pattern matches some
span of the query name — so an unanchored pattern matching only part of the
name still selects the rule and triggers rewriting. -/
theorem C7_unanchored_matching (r : Replacement) (name : String) :
    (find_replacement [r] name ≠ .ok none) ↔
    ∃ i j, i ≤ j ∧ j ≤ name.data.length ∧ Matches name.data r.from_ i j := by
  rw [← captures_isSome_iff]
  constructor
  · intro h
    by_contra hns
    have hnone : r.from_.captures name.data = none := Option.not_isSome_iff_eq_none.mp hns
    exact h (find_replacement_none_of_all_none [r] name (by simp [hnone]))
  · intro hsome hcontra
    rw [Option.isSome_iff_exists] at hsome
    obtain ⟨v, hv⟩ := hsome
    obtain ⟨i, j, caps⟩ := v
    rw [find_replacement_cons_some hv] at hcontra
    cases hst : strfmt r.to_ (mkVars r.from_ name.data i j caps) with
    | ok out => rw [hst] at hcontra; simp at hcontra
    | error e => rw [hst] at hcontra; simp at hcontra

/-- C8: a configuration in which any replacement's `from` field fails to
compile is rejected as a whole: `load_from_json` returns an error and no
`Config` value is produced, rather than skipping the bad rule. -/
theorem C8_invalid_pattern_fatal (raw : RawConfig)
    (h : ∃ r ∈ raw.replacements, Regex.new r.from_ = none) :
    ∃ e, load_from_json raw = .error e := by
  obtain ⟨e, he⟩ := compileReplacements_error raw.replacements h
  exact ⟨e, by simp only [load_from_json, he]⟩

/-- Witness for C8: a configuration whose single replacement has the invalid
pattern `(` is rejected. -/
theorem C8_witness :
    (∃ r ∈ (RawConfig.mk "127.0.0.1:8053" [⟨"(", "x.lan."⟩]).replacements,
      Regex.new r.from_ = none) ∧
    ∃ e, load_from_json (RawConfig.mk "127.0.0.1:8053" [⟨"(", "x.lan."⟩]) = .error e :=
  ⟨⟨⟨"(", "x.lan."⟩, by simp, by decide⟩,
    C8_invalid_pattern_fatal _ ⟨⟨"(", "x.lan."⟩, by simp, by decide⟩⟩

/-- C9: an eligible query whose (lowercased) name matches no rule's pattern
gets the no-match fallback: `find_replacement` returns no replacement and the
handler answers NXDOMAIN; in particular this holds for the empty rule set. -/
theorem C9_no_match_notFound (replacements : List Replacement) (name : String)
    (t : RecordType) (rest : List Query)
    (hel : t = .A ∨ t = .AAAA ∨ t = .ANY)
    (h : ∀ r ∈ replacements, r.from_.captures (lowerName name).data = none) :
    find_replacement replacements (lowerName name) = .ok none ∧
    handle_request replacements (⟨name, t⟩ :: rest) = .ok .notFound := by
  have hfr := find_replacement_none_of_all_none replacements (lowerName name) h
  refine ⟨hfr, ?_⟩
  rcases hel with rfl | rfl | rfl <;> simp [handle_request, hfr]

/-- Witness for C9: the `barry.net` scenario — one mnh rule, an `A` query for
`barry.net` — and the same query against the empty rule set. -/
theorem C9_witness :
    (∀ r ∈ [mnhRule], r.from_.captures (lowerName "barry.net").data = none) ∧
    find_replacement [mnhRule] (lowerName "barry.net") = .ok none ∧
    handle_request [mnhRule] [⟨"barry.net", .A⟩] = .ok .notFound ∧
    find_replacement ([] : List Replacement) (lowerName "barry.net") = .ok none ∧
    handle_request ([] : List Replacement) [⟨"barry.net", .A⟩] = .ok .notFound := by
  refine ⟨by decide, ?_, ?_, ?_, ?_⟩
  · exact (C9_no_match_notFound [mnhRule] "barry.net" .A [] (Or.inl rfl) (by decide)).1
  · exact (C9_no_match_notFound [mnhRule] "barry.net" .A [] (Or.inl rfl) (by decide)).2
  · exact (C9_no_match_notFound [] "barry.net" .A [] (Or.inl rfl) (by decide)).1
  · exact (C9_no_match_notFound [] "barry.net" .A [] (Or.inl rfl) (by decide)).2

/-- C10: the `Name::from_utf8(value).unwrap()` in the rewrite branch of
`handle_request` is reachable with an error: for the rule rewriting `x` to a
target whose first label is 64 bytes long, pattern matching and template
substitution both succeed, the target is not a valid DNS name, and the handler
panics instead of returning any response. -/
theorem C10_invalid_target_panics :
    find_replacement [longLabelRule] (lowerName "x") = .ok (some longLabelTarget) ∧
    nameFromUtf8 longLabelTarget = none ∧
    handle_request [longLabelRule] [⟨"x", .A⟩] = .error .nameUnwrap := by
  decide

end DnsRedirect
